import Mathlib

/-!
Shallow embedding of the statistical validation diagnostics of the
`sbc_flows` repository (classifier two-sample tests, p-value utilities,
PP-plot calibration curves, SBC confidence bands, HPD regions), together
with proofs of the specified properties.

Numeric arrays are embedded as lists of rationals; `numpy` row-wise
operations become list operations.  The classifier itself is an external
capability (sklearn) and is kept abstract (a function argument), exactly
as the source treats it: the code only calls `fit` / `predict_proba` /
`score` through the `train_c2st` / `eval_c2st` wrappers.
-/

namespace SbcFlows

/-! ## `valdiags/test_utils.py` -/

/-- Embedding of `compute_pvalue(t_stat_est, t_stats_null)`:
`(t_stat_est < np.array(t_stats_null)).mean()`, i.e. the fraction of null
statistics strictly greater than the observed statistic. -/
def compute_pvalue (t_stat_est : ℚ) (t_stats_null : List ℚ) : ℚ :=
  ((t_stats_null.filter (fun t => t_stat_est < t)).length : ℚ) / (t_stats_null.length : ℚ)

/-- Embedding of `eval_htest(t_stats_estimator, metrics, conf_alpha, **kwargs)`.
The estimator returns, for the requested metrics, the observed statistic and
the null sample per metric (the two dicts of the source); the result is the
`reject` dict, one boolean per metric, `True` iff `p_value < conf_alpha`. -/
def eval_htest (t_stats_estimator : List String → (String → ℚ) × (String → List ℚ))
    (metrics : List String) (conf_alpha : ℚ) : List (String × Bool) :=
  let r := t_stats_estimator metrics
  metrics.map (fun m => (m, decide (compute_pvalue (r.1 m) (r.2 m) < conf_alpha)))

/-! ## `diagnostics/pp_plots.py` -/

/-- Embedding of `PP_vals(PIT_values, alphas)`:
`[np.mean(PIT_values <= alpha) for alpha in alphas]`. -/
def PP_vals (PIT_values : List ℚ) (alphas : List ℚ) : List ℚ :=
  alphas.map (fun a =>
    ((PIT_values.filter (fun z => z ≤ a)).length : ℚ) / (PIT_values.length : ℚ))

/-! ## `valdiags/localC2ST.py`

The classifier is external (sklearn); the repository's `vanillaC2ST.py`
module that wraps it (`train_c2st`, `eval_c2st`, `compute_metric`) is not
among the sources, so per the spec those operations stay abstract function
arguments: `train_c2st` maps the two pooled joint sample sets to a fitted
classifier, `eval_c2st` maps evaluation features (population 0, optional
population 1), a fitted classifier and the `single_class_eval` flag to an
`(accuracy, probabilities)` pair, and `compute_metric` maps a probability
array and a metric name to a scalar statistic. -/

/-- `np.concatenate([A, B], axis=1)`: row-wise concatenation of two arrays
with the same number of rows. -/
def concatCols (A B : List (List ℚ)) : List (List ℚ) :=
  List.zipWith (· ++ ·) A B

/-- `x_eval.repeat(n, 1)`: the row vector `x` tiled into `n` identical rows. -/
def repeatRow (x : List ℚ) (n : ℕ) : List (List ℚ) :=
  List.replicate n x

/-- The evaluation features built by `eval_lc2st`: each evaluation sample
concatenated with `x_eval` repeated once per row
(`np.concatenate([P, x_eval.repeat(len(P), 1)], axis=1)`). -/
def evalFeatures (A : List (List ℚ)) (x_eval : List ℚ) : List (List ℚ) :=
  concatCols A (repeatRow x_eval A.length)

/-- Embedding of `train_lc2st(P, Q, x_P, x_Q, clf)`: concatenate `P`/`x_P` and
`Q`/`x_Q` column-wise into joint samples and hand them to `train_c2st`
(abstract argument `trainC2st`, the missing `vanillaC2ST.train_c2st`). -/
def train_lc2st {Clf : Type}
    (trainC2st : List (List ℚ) → List (List ℚ) → Clf)
    (P Q x_P x_Q : List (List ℚ)) : Clf :=
  trainC2st (concatCols P x_P) (concatCols Q x_Q)

/-- Embedding of `eval_lc2st(P, x_eval, clf, Q, single_class_eval)`: build the
evaluation features for `P` (and for `Q` when given); when `Q is None` the
evaluation population 1 is `None` and `single_class_eval` is overwritten with
`True` before calling `eval_c2st` (abstract argument `evalC2st`). -/
def eval_lc2st {Clf : Type}
    (evalC2st : List (List ℚ) → Option (List (List ℚ)) → Clf → Bool → ℚ × List ℚ)
    (P : List (List ℚ)) (x_eval : List ℚ) (clf : Clf)
    (Q : Option (List (List ℚ))) (single_class_eval : Bool) : ℚ × List ℚ :=
  match Q with
  | none => evalC2st (evalFeatures P x_eval) none clf true
  | some q => evalC2st (evalFeatures P x_eval) (some (evalFeatures q x_eval)) clf
      single_class_eval

/-- `np.mean` of a list of scalars. -/
def listMean (l : List ℚ) : ℚ := l.sum / (l.length : ℚ)

/-- Elementwise sum of a list of equal-length vectors (`np.sum(_, axis=0)`). -/
def vecSum : List (List ℚ) → List ℚ
  | [] => []
  | [v] => v
  | v :: w :: rest => List.zipWith (· + ·) v (vecSum (w :: rest))

/-- `np.mean` of a list of equal-length vectors along axis 0. -/
def vecMean (ls : List (List ℚ)) : List ℚ :=
  (vecSum ls).map (fun x => x / (ls.length : ℚ))

/-- Python `"accuracy" in m`: substring test. -/
def strContains (needle hay : String) : Bool :=
  (List.range (hay.toList.length + 1)).any
    (fun i => needle.toList.isPrefixOf (hay.toList.drop i))

/-- Embedding of the `cross_val=False` branch of `lc2st_scores`: train and
evaluate `n_ensemble` classifiers, average accuracies and probability arrays
elementwise over the ensemble, then fill the scores dict: the ensemble
accuracy for metrics whose name contains `"accuracy"`, otherwise
`compute_metric` (abstract argument `computeMetric`) on the ensemble
probabilities. -/
def lc2st_scores_noncv {Clf : Type}
    (trainC2st : List (List ℚ) → List (List ℚ) → Clf)
    (evalC2st : List (List ℚ) → Option (List (List ℚ)) → Clf → Bool → ℚ × List ℚ)
    (computeMetric : List ℚ → String → Bool → ℚ)
    (P Q x_P x_Q : List (List ℚ)) (x_eval : List ℚ)
    (P_eval : List (List ℚ)) (Q_eval : Option (List (List ℚ)))
    (metrics : List String) (single_class_eval : Bool) (in_sample : Bool)
    (n_ensemble : ℕ) : List (String × ℚ) × List ℚ :=
  let runs := (List.range n_ensemble).map (fun _ =>
    let clf := train_lc2st trainC2st P Q x_P x_Q
    eval_lc2st evalC2st (if in_sample then P else P_eval) x_eval clf
      (if in_sample then some Q else Q_eval) single_class_eval)
  let accuracy := listMean (runs.map Prod.fst)
  let probas := vecMean (runs.map Prod.snd)
  (metrics.map (fun m =>
      (m, if strContains "accuracy" m then accuracy
          else computeMetric probas m single_class_eval)),
   probas)

/-- Following the spec: "a single direct train+evaluate call", i.e. one
`train_lc2st` followed by one `eval_lc2st` on the same data. -/
def lc2st_single {Clf : Type}
    (trainC2st : List (List ℚ) → List (List ℚ) → Clf)
    (evalC2st : List (List ℚ) → Option (List (List ℚ)) → Clf → Bool → ℚ × List ℚ)
    (P Q x_P x_Q : List (List ℚ)) (x_eval : List ℚ)
    (P_eval : List (List ℚ)) (Q_eval : Option (List (List ℚ)))
    (single_class_eval : Bool) : ℚ × List ℚ :=
  eval_lc2st evalC2st P_eval x_eval (train_lc2st trainC2st P Q x_P x_Q) Q_eval
    single_class_eval

/-- sklearn `KFold` fold sizes over `n` samples and `k` folds: `n // k`
everywhere, plus one for the first `n % k` folds. -/
def kfold_sizes (n k : ℕ) : List ℕ :=
  (List.range k).map (fun i => n / k + if i < n % k then 1 else 0)

/-- Split a list into consecutive chunks of the given sizes. -/
def splitSizes {α : Type} : List ℕ → List α → List (List α)
  | [], _ => []
  | s :: ss, l => l.take s :: splitSizes ss (l.drop s)

/-- The validation-fold index blocks produced by
`KFold(n_splits=k, shuffle=True, random_state=42).split(P)`: the seeded
shuffle of `range(n)` is the external RNG's permutation `perm`; the folds are
its consecutive blocks with the sklearn fold sizes. -/
def kfold_folds (perm : List ℕ) (k : ℕ) : List (List ℕ) :=
  splitSizes (kfold_sizes perm.length k) perm

/-- `A[idx]` for an index array: numpy fancy indexing. -/
def select (A : List (List ℚ)) (idx : List ℕ) : List (List ℚ) :=
  idx.map (fun i => A.getD i [])

/-- Embedding of the `cross_val=True` branch of `lc2st_scores`: for each
cross-validation fold, train on the training indices and evaluate on the
validation indices (taken from `P_eval`/`Q_eval` when given, else from
`P`/`Q`), collecting per-fold metric values and probability arrays. -/
def lc2st_scores_cv {Clf : Type}
    (trainC2st : List (List ℚ) → List (List ℚ) → Clf)
    (evalC2st : List (List ℚ) → Option (List (List ℚ)) → Clf → Bool → ℚ × List ℚ)
    (computeMetric : List ℚ → String → Bool → ℚ)
    (P Q x_P x_Q : List (List ℚ)) (x_eval : List ℚ)
    (P_eval Q_eval : Option (List (List ℚ))) (metrics : List String)
    (single_class_eval : Bool) (n_folds : ℕ) (perm : List ℕ) :
    List (String × List ℚ) × List (List ℚ) :=
  let folds := kfold_folds perm n_folds
  let runs := folds.map (fun val_index =>
    let train_index := (List.range P.length).filter (fun i => ¬ val_index.contains i)
    let clf_n := train_lc2st trainC2st (select P train_index) (select Q train_index)
        (select x_P train_index) (select x_Q train_index)
    let P_val := match P_eval with
      | none => select P val_index
      | some Pe => select Pe val_index
    let Q_val := match Q_eval with
      | none => select Q val_index
      | some Qe => select Qe val_index
    eval_lc2st evalC2st P_val x_eval clf_n (some Q_val) single_class_eval)
  (metrics.map (fun m => (m, runs.map (fun r =>
      if strContains "accuracy" m then r.1
      else computeMetric r.2 m single_class_eval))),
   runs.map Prod.snd)

/-! ## `valdiags/confidence_regions.py` -/

/-- `np.linspace(start, stop, num)` (`num = 1` gives `[start]`). -/
def linspace (start stop : ℚ) (num : ℕ) : List ℚ :=
  if num = 1 then [start]
  else (List.range num).map (fun i : ℕ => start + (stop - start) * (i : ℚ) / ((num : ℚ) - 1))

/-- `posterior_probs /= torch.sum(posterior_probs)`: normalisation of the
external density values (`torch.exp(log_prob)`) over the parameter grid. -/
def normalize (probs : List ℚ) : List ℚ :=
  probs.map (fun p => p / probs.sum)

/-- The confidence level examined at threshold index `i`:
`torch.sum(posterior_probs[posterior_probs >= p_stars[i]])`. -/
def levelAt (probs p_stars : List ℚ) (i : ℕ) : ℚ :=
  (probs.filter (fun p => p_stars.getD i 0 ≤ p)).sum

/-- The `while` loop of `hpd_region` on state
`(idx, current_confidence_level, new_confidence_levels)`: loop while the
tracked level is more than `tol` away from the requested one, breaking once
`idx` reaches `n_p_stars = p_stars.length`; each iteration examines threshold
`p_stars[idx]`, keeps the examined level if it is strictly closer to the
requested level, records it, and increments `idx`. -/
def hpd_loop (probs p_stars : List ℚ) (confidence_level tol : ℚ) :
    ℕ → ℚ → List ℚ → ℚ × List ℚ × ℕ
  | idx, current, levels =>
    if |current - confidence_level| ≤ tol then (current, levels, idx)
    else if _h : idx < p_stars.length then
      hpd_loop probs p_stars confidence_level tol (idx + 1)
        (if |levelAt probs p_stars idx - confidence_level|
              < |current - confidence_level| then levelAt probs p_stars idx
         else current)
        (levels ++ [levelAt probs p_stars idx])
    else (current, levels, idx)
  termination_by idx => p_stars.length - idx
  decreasing_by omega

/-- Python list indexing with a possibly negative index (`p_stars[idx - 1]`
where `idx` may be `0`). -/
def pyGetD (l : List ℚ) (i : ℤ) : ℚ :=
  if i < 0 then l.getD (l.length - (-i).toNat) 0 else l.getD i.toNat 0

/-- `param_grid[posterior_probs >= p_star, :]`: boolean-mask row selection. -/
def maskRows (grid : List (List ℚ)) (probs : List ℚ) (thr : ℚ) : List (List ℚ) :=
  ((grid.zip probs).filter (fun r => thr ≤ r.2)).map Prod.fst

/-- The threshold grid of `hpd_region`: `np.linspace(0.99, 0, n_p_stars)`. -/
def hpd_stars (n_p_stars : ℕ) : List ℚ :=
  linspace (99/100) 0 n_p_stars

/-- The final loop state of `hpd_region`
(`current_confidence_level, new_confidence_levels, idx`), starting from
`idx = 0`, `current_confidence_level = 1`, no recorded levels. -/
def hpd_res (posterior_probs_raw : List ℚ) (confidence_level : ℚ)
    (n_p_stars : ℕ) (tol : ℚ) : ℚ × List ℚ × ℕ :=
  hpd_loop (normalize posterior_probs_raw) (hpd_stars n_p_stars)
    confidence_level tol 0 1 []

/-- Embedding of `hpd_region(posterior, prior, param_grid, x, confidence_level,
n_p_stars, tol)`.  The external density evaluation is the input
`posterior_probs_raw` (one nonnegative weight per grid row); the function
normalizes it, runs the threshold-scanning loop, and returns the chosen
confidence level, the grid rows whose normalized probability reaches the last
chosen threshold `p_stars[idx - 1]` (Python's negative indexing applies when
the loop never ran), and the list of examined levels. -/
def hpd_region (posterior_probs_raw : List ℚ) (param_grid : List (List ℚ))
    (confidence_level : ℚ) (n_p_stars : ℕ) (tol : ℚ) :
    ℚ × List (List ℚ) × List ℚ :=
  let res := hpd_res posterior_probs_raw confidence_level n_p_stars tol
  (res.1,
   maskRows param_grid (normalize posterior_probs_raw)
     (pyGetD (hpd_stars n_p_stars) ((res.2.2 : ℤ) - 1)),
   res.2.1)

/-! ## SBC confidence bands
(`plots_neurips2022.py` / `plots_neurips2023_new.py`) -/

/-- Binomial probability mass `C(N,k) p^k (1-p)^(N-k)`. -/
def binomPMF (N : ℕ) (p : ℚ) (k : ℕ) : ℚ :=
  (N.choose k : ℚ) * p ^ k * (1 - p) ^ (N - k)

/-- Binomial cumulative distribution function at `k`. -/
def binomCDF (N : ℕ) (p : ℚ) (k : ℕ) : ℚ :=
  ((List.range (k + 1)).map (fun j : ℕ => binomPMF N p j)).sum

/-- Linear scan for the first candidate (starting at `start`, `fuel`
candidates) satisfying the predicate; past the last candidate the scan stops
and returns the candidate reached. -/
def ppfSearch (pred : ℕ → Bool) : ℕ → ℕ → ℕ
  | 0, start => start
  | fuel + 1, start => if pred start then start else ppfSearch pred fuel (start + 1)

/-- `scipy.stats.binom(N, p).ppf(q)` for `0 < q ≤ 1`: the smallest `k` with
`CDF(k) ≥ q`. -/
def binomPPF (N : ℕ) (p q : ℚ) : ℕ :=
  ppfSearch (fun k => decide (q ≤ binomCDF N p k)) (N + 1) 0

/-- `np.cumsum`. -/
def cumsum (l : List ℚ) : List ℚ :=
  (List.range l.length).map (fun i : ℕ => (l.take (i + 1)).sum)

/-- `hb = binom(N, p=1/nbins).ppf(0.5) * np.ones(nbins)` from
`multi_global_consistency`. -/
def sbcHb (N nbins : ℕ) : List ℚ :=
  List.replicate nbins ((binomPPF N (1 / (nbins : ℚ)) (1/2) : ℕ) : ℚ)

/-- `hbb = hb.cumsum() / hb.sum()` from `multi_global_consistency`. -/
def sbcHbbRaw (N nbins : ℕ) : List ℚ :=
  (cumsum (sbcHb N nbins)).map (fun x => x / (sbcHb N nbins).sum)

/-- `hbb[-1] -= 1e-9` ("avoid last value being exactly 1"). -/
def adjustLast (l : List ℚ) : List ℚ :=
  l.take (l.length - 1) ++ (match l.getLast? with
    | some x => [x - 1 / 1000000000]
    | none => [])

/-- The cumulative success probabilities fed to the band of
`multi_global_consistency`. -/
def sbcHbb (N nbins : ℕ) : List ℚ :=
  adjustLast (sbcHbbRaw N nbins)

/-- The analytic SBC band of `multi_global_consistency`
(`plots_neurips2022.py`): `lower = [binom(N, p=p).ppf(0.005) for p in hbb]`
and `upper = [binom(N, p=p).ppf(0.995) for p in hbb]`. -/
def sbcBand2022 (N nbins : ℕ) : List ℕ × List ℕ :=
  ((sbcHbb N nbins).map (fun p => binomPPF N p (1/200)),
   (sbcHbb N nbins).map (fun p => binomPPF N p (199/200)))

/-- Following the spec's words, for comparison with `sbcBand2022`: a band from
"a Binomial distribution with `N` = number of ranks and per-bin success
probability `1/nbins`", evaluated at the 0.005 and 0.995 quantiles in every
bin. -/
def sbcBandSpecWords (N nbins : ℕ) : List ℕ × List ℕ :=
  (List.replicate nbins (binomPPF N (1 / (nbins : ℚ)) (1/200)),
   List.replicate nbins (binomPPF N (1 / (nbins : ℚ)) (199/200)))

/-- The Bonferroni correction `conf_alpha = conf_alpha / len(sbc_ranks[0])` of
`global_coverage_pp_plots` (`plots_neurips2023_new.py`). -/
def bonferroni (conf_alpha : ℚ) (n_dims : ℕ) : ℚ :=
  conf_alpha / (n_dims : ℚ)

/-- pandas `quantile` with the default linear interpolation. -/
def quantileLinear (xs : List ℚ) (q : ℚ) : ℚ :=
  let s := List.insertionSort (· ≤ ·) xs
  let pos := q * ((s.length : ℚ) - 1)
  let i := pos.num.toNat / pos.den
  s.getD i 0 + (pos - (i : ℚ)) * (s.getD (i + 1) (s.getD i 0) - s.getD i 0)

/-- The Monte-Carlo band of `global_coverage_pp_plots`
(`plots_neurips2023_new.py`): `u_pp_values[t] = PP_vals(u_samples[t], alphas)`
per trial (`u_samples[t] = uniform().rvs(N)` is the externally drawn random
sample), then per grid point the `conf_alpha/2` and `1 - conf_alpha/2`
quantiles across trials. -/
def mcUniformBand (u_samples : List (List ℚ)) (alphas : List ℚ)
    (conf_alpha : ℚ) : List ℚ × List ℚ :=
  let pp := u_samples.map (fun u => PP_vals u alphas)
  ((List.range alphas.length).map (fun i : ℕ =>
      quantileLinear (pp.map (fun r => r.getD i 0)) (conf_alpha / 2)),
   (List.range alphas.length).map (fun i : ℕ =>
      quantileLinear (pp.map (fun r => r.getD i 0)) (1 - conf_alpha / 2)))

end SbcFlows

namespace SbcFlows

/-! ## Theorems: p-value semantics (C1) -/

theorem compute_pvalue_nonneg (t : ℚ) (nulls : List ℚ) : 0 ≤ compute_pvalue t nulls := by
  unfold compute_pvalue
  positivity

theorem filter_length_le_list (p : ℚ → Bool) (l : List ℚ) :
    (l.filter p).length ≤ l.length := List.length_filter_le p l

/-- C1: for a non-empty null sample, `compute_pvalue` is the fraction of null
values strictly greater than the observed statistic; it lies in `[0,1]`, equals
`1` iff every null value strictly exceeds `t`, and equals `0` iff no null value
strictly exceeds `t`. -/
theorem compute_pvalue_spec (t : ℚ) (nulls : List ℚ) (hne : nulls ≠ []) :
    compute_pvalue t nulls
        = ((nulls.filter (fun x => t < x)).length : ℚ) / (nulls.length : ℚ)
    ∧ 0 ≤ compute_pvalue t nulls ∧ compute_pvalue t nulls ≤ 1
    ∧ (compute_pvalue t nulls = 1 ↔ ∀ x ∈ nulls, t < x)
    ∧ (compute_pvalue t nulls = 0 ↔ ∀ x ∈ nulls, ¬ t < x) := by
  have hlen : 0 < (nulls.length : ℚ) := by
    have : 0 < nulls.length := List.length_pos.mpr hne
    exact_mod_cast this
  have hfle : ((nulls.filter (fun x => t < x)).length : ℚ) ≤ (nulls.length : ℚ) := by
    exact_mod_cast filter_length_le_list (fun x => decide (t < x)) nulls
  refine ⟨rfl, compute_pvalue_nonneg t nulls, ?_, ?_, ?_⟩
  · unfold compute_pvalue
    rw [div_le_one hlen]
    exact hfle
  · unfold compute_pvalue
    rw [div_eq_one_iff_eq (ne_of_gt hlen)]
    constructor
    · intro h
      have hlen' : (nulls.filter (fun x => t < x)).length = nulls.length := by
        exact_mod_cast h
      intro x hx
      have := List.filter_length_eq_length.mp hlen' x hx
      simpa using this
    · intro h
      have : (nulls.filter (fun x => t < x)).length = nulls.length := by
        apply List.filter_length_eq_length.mpr
        intro x hx
        simpa using h x hx
      exact_mod_cast this
  · unfold compute_pvalue
    rw [div_eq_zero_iff]
    constructor
    · intro h
      rcases h with h | h
      · have hlen' : (nulls.filter (fun x => t < x)).length = 0 := by
          exact_mod_cast h
        intro x hx ht
        have hmem : x ∈ nulls.filter (fun x => t < x) := by
          apply List.mem_filter.mpr
          exact ⟨hx, by simpa using ht⟩
        rw [List.length_eq_zero] at hlen'
        simp [hlen'] at hmem
      · exact absurd h (ne_of_gt hlen)
    · intro h
      left
      have : nulls.filter (fun x => t < x) = [] := by
        apply List.filter_eq_nil_iff.mpr
        intro x hx
        simpa using h x hx
      simp [this]

/-- Witness for `compute_pvalue_spec` at `t = 1`, `nulls = [0, 2, 3]`
(p-value `2/3`). -/
theorem compute_pvalue_spec_witness :
    ([(0 : ℚ), 2, 3] ≠ [])
    ∧ (compute_pvalue 1 [0, 2, 3]
          = (([(0 : ℚ), 2, 3].filter (fun x => (1 : ℚ) < x)).length : ℚ)
              / (([(0 : ℚ), 2, 3]).length : ℚ)
        ∧ 0 ≤ compute_pvalue 1 [0, 2, 3] ∧ compute_pvalue 1 [0, 2, 3] ≤ 1
        ∧ (compute_pvalue 1 [0, 2, 3] = 1 ↔ ∀ x ∈ [(0 : ℚ), 2, 3], (1 : ℚ) < x)
        ∧ (compute_pvalue 1 [0, 2, 3] = 0 ↔ ∀ x ∈ [(0 : ℚ), 2, 3], ¬ (1 : ℚ) < x)) :=
  ⟨by decide, compute_pvalue_spec 1 [0, 2, 3] (by decide)⟩

/-! ## Theorems: decision rule of `eval_htest` (C2) -/

/-- C2: for every requested metric `m`, the `reject` entry of `eval_htest` is
`True` exactly when the p-value computed by `compute_pvalue` from that metric's
observed and null statistics is strictly below the significance level. -/
theorem eval_htest_reject_iff
    (est : List String → (String → ℚ) × (String → List ℚ))
    (metrics : List String) (conf_alpha : ℚ) (m : String) (hm : m ∈ metrics) :
    (m, true) ∈ eval_htest est metrics conf_alpha
      ↔ compute_pvalue ((est metrics).1 m) ((est metrics).2 m) < conf_alpha := by
  unfold eval_htest
  constructor
  · intro h
    rcases List.mem_map.mp h with ⟨m', _, hpair⟩
    have hm' : m' = m := congrArg Prod.fst hpair
    have hb : decide (compute_pvalue ((est metrics).1 m') ((est metrics).2 m') < conf_alpha)
        = true := congrArg Prod.snd hpair
    rw [hm'] at hb
    exact of_decide_eq_true hb
  · intro h
    apply List.mem_map.mpr
    refine ⟨m, hm, ?_⟩
    simp [h]

/-- Witness for `eval_htest_reject_iff`: a single metric whose observed
statistic `0` is below both null values, so `p = 1` and the test does not
reject at level `1/20`. -/
theorem eval_htest_reject_iff_witness :
    ("acc" ∈ ["acc"])
    ∧ (("acc", true) ∈ eval_htest (fun _ => (fun _ => 0, fun _ => [1, 2])) ["acc"] (1/20)
        ↔ compute_pvalue ((fun (_ : String) => (0 : ℚ)) "acc")
            ((fun (_ : String) => [(1 : ℚ), 2]) "acc") < 1/20) :=
  ⟨by decide,
    eval_htest_reject_iff (fun _ => (fun _ => 0, fun _ => [1, 2])) ["acc"] (1/20) "acc"
      (by decide)⟩

/-! ## Theorems: PP-plot empirical CDF (C3) -/

theorem filter_le_length_mono (l : List ℚ) {a b : ℚ} (hab : a ≤ b) :
    (l.filter (fun z => z ≤ a)).length ≤ (l.filter (fun z => z ≤ b)).length := by
  induction l with
  | nil => simp
  | cons x xs ih =>
    by_cases hx : x ≤ a
    · have hxb : x ≤ b := le_trans hx hab
      simp only [List.filter_cons, hx, hxb, decide_True, if_true, List.length_cons]
      exact Nat.succ_le_succ ih
    · by_cases hxb : x ≤ b
      · simp only [List.filter_cons, hx, hxb, decide_True, decide_False, if_true, if_false,
          List.length_cons]
        exact le_trans ih (Nat.le_succ _)
      · simp only [List.filter_cons, hx, hxb, decide_False, if_false]
        exact ih

/-- C3: on a non-empty PIT sample and a non-decreasing alpha grid, `PP_vals`
returns one value per grid point, each equal to the fraction of PIT values
`≤` that grid point, the sequence is non-decreasing along the grid, and every
entry lies in `[0,1]`. -/
theorem PP_vals_spec (pit alphas : List ℚ) (hne : pit ≠ [])
    (hmono : List.Chain' (· ≤ ·) alphas) :
    (PP_vals pit alphas).length = alphas.length
    ∧ (∀ i : ℕ, (PP_vals pit alphas)[i]?
        = (alphas[i]?).map (fun a =>
            ((pit.filter (fun z => z ≤ a)).length : ℚ) / (pit.length : ℚ)))
    ∧ List.Chain' (· ≤ ·) (PP_vals pit alphas)
    ∧ (∀ v ∈ PP_vals pit alphas, 0 ≤ v ∧ v ≤ 1) := by
  have hlen : 0 < (pit.length : ℚ) := by
    have : 0 < pit.length := List.length_pos.mpr hne
    exact_mod_cast this
  refine ⟨List.length_map _ _, ?_, ?_, ?_⟩
  · intro i
    simp [PP_vals, List.getElem?_map]
  · unfold PP_vals
    rw [List.chain'_map]
    refine hmono.imp ?_
    intro a b hab
    have hcnt := filter_le_length_mono pit hab
    have hcnt' : ((pit.filter (fun z => z ≤ a)).length : ℚ)
        ≤ ((pit.filter (fun z => z ≤ b)).length : ℚ) := by exact_mod_cast hcnt
    exact div_le_div_of_nonneg_right hcnt' hlen.le
  · intro v hv
    rcases List.mem_map.mp hv with ⟨a, _, rfl⟩
    constructor
    · positivity
    · rw [div_le_one hlen]
      exact_mod_cast filter_length_le_list (fun z => decide (z ≤ a)) pit

/-- Witness for `PP_vals_spec` on the PIT sample `[1/4, 3/4]` and the grid
`[0, 1/2, 1]`. -/
theorem PP_vals_spec_witness :
    ([(1 : ℚ)/4, 3/4] ≠ [] ∧ List.Chain' (· ≤ ·) [(0 : ℚ), 1/2, 1])
    ∧ ((PP_vals [(1 : ℚ)/4, 3/4] [0, 1/2, 1]).length = ([(0 : ℚ), 1/2, 1]).length
      ∧ (∀ i : ℕ, (PP_vals [(1 : ℚ)/4, 3/4] [0, 1/2, 1])[i]?
          = (([(0 : ℚ), 1/2, 1])[i]?).map (fun a =>
              (([(1 : ℚ)/4, 3/4].filter (fun z => z ≤ a)).length : ℚ)
                / (([(1 : ℚ)/4, 3/4]).length : ℚ)))
      ∧ List.Chain' (· ≤ ·) (PP_vals [(1 : ℚ)/4, 3/4] [0, 1/2, 1])
      ∧ (∀ v ∈ PP_vals [(1 : ℚ)/4, 3/4] [0, 1/2, 1], 0 ≤ v ∧ v ≤ 1)) :=
  ⟨⟨by decide, by norm_num [List.chain'_cons]⟩,
    PP_vals_spec [(1 : ℚ)/4, 3/4] [0, 1/2, 1] (by decide) (by norm_num [List.chain'_cons])⟩

/-! ## Theorems: ensembling with one member (C4) -/

theorem listMean_singleton (a : ℚ) : listMean [a] = a := by
  simp [listMean]

theorem vecMean_singleton (v : List ℚ) : vecMean [v] = v := by
  simp [vecMean, vecSum]

/-- C4: with `cross_val=False` and `n_ensemble=1`, `lc2st_scores` returns
exactly the accuracy and probability outputs of one direct `train_lc2st`
followed by `eval_lc2st` (`lc2st_single`): the scores dict is filled from the
single run's accuracy and probabilities, and the returned probability array is
the single run's probability array. -/
theorem lc2st_scores_ensemble_one {Clf : Type}
    (trainC2st : List (List ℚ) → List (List ℚ) → Clf)
    (evalC2st : List (List ℚ) → Option (List (List ℚ)) → Clf → Bool → ℚ × List ℚ)
    (computeMetric : List ℚ → String → Bool → ℚ)
    (P Q x_P x_Q : List (List ℚ)) (x_eval : List ℚ)
    (P_eval : List (List ℚ)) (Q_eval : Option (List (List ℚ)))
    (metrics : List String) (sce : Bool) :
    lc2st_scores_noncv trainC2st evalC2st computeMetric P Q x_P x_Q x_eval
        P_eval Q_eval metrics sce false 1
      = (metrics.map (fun m =>
          (m, if strContains "accuracy" m
              then (lc2st_single trainC2st evalC2st P Q x_P x_Q x_eval P_eval
                  Q_eval sce).1
              else computeMetric
                (lc2st_single trainC2st evalC2st P Q x_P x_Q x_eval P_eval
                  Q_eval sce).2 m sce)),
         (lc2st_single trainC2st evalC2st P Q x_P x_Q x_eval P_eval Q_eval sce).2) := by
  unfold lc2st_scores_noncv lc2st_single
  simp only [List.range_succ, List.range_zero, List.nil_append, List.map_cons,
    List.map_nil, Bool.false_eq_true, if_false, listMean_singleton, vecMean_singleton]

/-! ## Theorems: joint features of the local test (C6) -/

theorem concatCols_row_length {d e : ℕ} :
    ∀ (A B : List (List ℚ)), (∀ r ∈ A, r.length = d) → (∀ r ∈ B, r.length = e) →
      ∀ r ∈ concatCols A B, r.length = d + e := by
  intro A
  induction A with
  | nil => intro B _ _ r hr; simp [concatCols] at hr
  | cons a A ih =>
    intro B hA hB r hr
    cases B with
    | nil => simp [concatCols] at hr
    | cons b B =>
      rw [concatCols, List.zipWith_cons_cons] at hr
      cases hr with
      | head =>
        rw [List.length_append, hA a (by simp), hB b (by simp)]
      | tail _ hr =>
        exact ih B (fun r h => hA r (by simp [h])) (fun r h => hB r (by simp [h])) r hr

theorem evalFeatures_length (A : List (List ℚ)) (x : List ℚ) :
    (evalFeatures A x).length = A.length := by
  simp [evalFeatures, concatCols, repeatRow, List.length_zipWith]

theorem evalFeatures_row (A : List (List ℚ)) (x : List ℚ) (i : ℕ) :
    (evalFeatures A x)[i]? = (A[i]?).map (fun r => r ++ x) := by
  rw [evalFeatures, concatCols, repeatRow, List.getElem?_zipWith]
  by_cases h : i < A.length
  · rw [List.getElem?_eq_getElem h, List.getElem?_replicate, if_pos h]
    rfl
  · rw [List.getElem?_eq_none (le_of_not_lt h), List.getElem?_replicate, if_neg h]
    rfl

/-- C6: `train_lc2st` trains on the column-wise concatenations `[P, x_P]` and
`[Q, x_Q]`, whose rows have feature dimension `d + d_x`; `eval_lc2st` feeds
`eval_c2st` the evaluation samples concatenated row-wise with the repeated
`x_eval`, so each feature array has exactly one row per evaluation sample. -/
theorem lc2st_features_spec {Clf : Type}
    (trainC2st : List (List ℚ) → List (List ℚ) → Clf)
    (evalC2st : List (List ℚ) → Option (List (List ℚ)) → Clf → Bool → ℚ × List ℚ)
    (clf : Clf) (d dx : ℕ) (P Q x_P x_Q : List (List ℚ)) (x_eval : List ℚ)
    (P_e Q_e : List (List ℚ)) (sce : Bool)
    (hP : ∀ r ∈ P, r.length = d) (hxP : ∀ r ∈ x_P, r.length = dx)
    (hQ : ∀ r ∈ Q, r.length = d) (hxQ : ∀ r ∈ x_Q, r.length = dx) :
    train_lc2st trainC2st P Q x_P x_Q
        = trainC2st (concatCols P x_P) (concatCols Q x_Q)
    ∧ (∀ r ∈ concatCols P x_P, r.length = d + dx)
    ∧ (∀ r ∈ concatCols Q x_Q, r.length = d + dx)
    ∧ eval_lc2st evalC2st P_e x_eval clf (some Q_e) sce
        = evalC2st (evalFeatures P_e x_eval) (some (evalFeatures Q_e x_eval)) clf sce
    ∧ (∀ i : ℕ, (evalFeatures P_e x_eval)[i]? = (P_e[i]?).map (fun r => r ++ x_eval))
    ∧ (∀ i : ℕ, (evalFeatures Q_e x_eval)[i]? = (Q_e[i]?).map (fun r => r ++ x_eval))
    ∧ (evalFeatures P_e x_eval).length = P_e.length
    ∧ (evalFeatures Q_e x_eval).length = Q_e.length :=
  ⟨rfl, concatCols_row_length P x_P hP hxP, concatCols_row_length Q x_Q hQ hxQ,
    rfl, evalFeatures_row P_e x_eval, evalFeatures_row Q_e x_eval,
    evalFeatures_length P_e x_eval, evalFeatures_length Q_e x_eval⟩

/-- Witness for `lc2st_features_spec` on one-sample arrays of dimension
`d = 1`, `d_x = 1`. -/
theorem lc2st_features_spec_witness :
    ((∀ r ∈ [[(1 : ℚ)]], r.length = 1) ∧ (∀ r ∈ [[(2 : ℚ)]], r.length = 1)
      ∧ (∀ r ∈ [[(3 : ℚ)]], r.length = 1) ∧ (∀ r ∈ [[(4 : ℚ)]], r.length = 1))
    ∧ (train_lc2st (fun _ _ => ()) [[(1 : ℚ)]] [[(3 : ℚ)]] [[(2 : ℚ)]] [[(4 : ℚ)]]
          = (fun _ _ => ()) (concatCols [[(1 : ℚ)]] [[(2 : ℚ)]])
              (concatCols [[(3 : ℚ)]] [[(4 : ℚ)]])
      ∧ (∀ r ∈ concatCols [[(1 : ℚ)]] [[(2 : ℚ)]], r.length = 1 + 1)
      ∧ (∀ r ∈ concatCols [[(3 : ℚ)]] [[(4 : ℚ)]], r.length = 1 + 1)
      ∧ eval_lc2st (fun _ _ _ _ => (0, [])) [[(5 : ℚ)]] [(6 : ℚ)] ()
            (some [[(7 : ℚ)]]) true
          = (fun _ _ _ _ => ((0 : ℚ), ([] : List ℚ)))
              (evalFeatures [[(5 : ℚ)]] [(6 : ℚ)])
              (some (evalFeatures [[(7 : ℚ)]] [(6 : ℚ)])) () true
      ∧ (∀ i : ℕ, (evalFeatures [[(5 : ℚ)]] [(6 : ℚ)])[i]?
          = (([[(5 : ℚ)]])[i]?).map (fun r => r ++ [(6 : ℚ)]))
      ∧ (∀ i : ℕ, (evalFeatures [[(7 : ℚ)]] [(6 : ℚ)])[i]?
          = (([[(7 : ℚ)]])[i]?).map (fun r => r ++ [(6 : ℚ)]))
      ∧ (evalFeatures [[(5 : ℚ)]] [(6 : ℚ)]).length = ([[(5 : ℚ)]]).length
      ∧ (evalFeatures [[(7 : ℚ)]] [(6 : ℚ)]).length = ([[(7 : ℚ)]]).length) :=
  ⟨⟨by decide, by decide, by decide, by decide⟩,
    lc2st_features_spec (fun _ _ => ()) (fun _ _ _ _ => (0, [])) () 1 1
      [[(1 : ℚ)]] [[(3 : ℚ)]] [[(2 : ℚ)]] [[(4 : ℚ)]] [(6 : ℚ)] [[(5 : ℚ)]]
      [[(7 : ℚ)]] true (by decide) (by decide) (by decide) (by decide)⟩

/-! ## Theorems: cross-validation folds partition the index set (C5) -/

theorem sum_ite_lt (m : ℕ) : ∀ k : ℕ,
    ((List.range k).map (fun i => if i < m then 1 else 0)).sum = min k m := by
  intro k
  induction k with
  | zero => simp
  | succ k ih =>
    rw [List.range_succ, List.map_append, List.sum_append, ih]
    by_cases h : k < m
    · simp only [List.map_cons, List.map_nil, List.sum_cons, List.sum_nil, if_pos h]
      omega
    · simp only [List.map_cons, List.map_nil, List.sum_cons, List.sum_nil, if_neg h]
      omega

theorem map_add_sum (q : ℕ) (g : ℕ → ℕ) : ∀ k : ℕ,
    ((List.range k).map (fun i => q + g i)).sum
      = k * q + ((List.range k).map g).sum := by
  intro k
  induction k with
  | zero => simp
  | succ k ih =>
    rw [List.range_succ, List.map_append, List.sum_append, ih,
      List.map_append, List.sum_append]
    simp only [List.map_cons, List.map_nil, List.sum_cons, List.sum_nil]
    ring

theorem kfold_sizes_sum (n k : ℕ) (hk : 0 < k) : (kfold_sizes n k).sum = n := by
  unfold kfold_sizes
  rw [map_add_sum, sum_ite_lt]
  have h1 : min k (n % k) = n % k := Nat.min_eq_right (le_of_lt (Nat.mod_lt n hk))
  rw [h1]
  exact Nat.div_add_mod n k

theorem splitSizes_flatten {α : Type} : ∀ (ss : List ℕ) (l : List α),
    (splitSizes ss l).flatten = l.take ss.sum := by
  intro ss
  induction ss with
  | nil => intro l; simp [splitSizes]
  | cons s ss ih =>
    intro l
    rw [splitSizes, List.flatten_cons, ih, List.sum_cons, List.take_add]

theorem splitSizes_lengths {α : Type} : ∀ (ss : List ℕ) (l : List α),
    ss.sum ≤ l.length → (splitSizes ss l).map List.length = ss := by
  intro ss
  induction ss with
  | nil => intro l _; simp [splitSizes]
  | cons s ss ih =>
    intro l h
    rw [List.sum_cons] at h
    have hs : s ≤ l.length := le_trans (Nat.le_add_right s ss.sum) h
    have hrest : ss.sum ≤ (l.drop s).length := by
      rw [List.length_drop]
      omega
    rw [splitSizes, List.map_cons, List.length_take, Nat.min_eq_left hs, ih _ hrest]

/-- C5: the validation-fold index blocks of the cross-validation branch of
`lc2st_scores` (sklearn `KFold` over the shuffled indices `perm` of
`{0,...,n-1}`) are pairwise disjoint, their union is exactly `{0,...,n-1}`,
and each fold size is within `±1` of `n / k`. -/
theorem kfold_folds_partition (n k : ℕ) (perm : List ℕ)
    (hperm : perm.Perm (List.range n)) (hk : 0 < k) (_hkn : k ≤ n) :
    List.Pairwise List.Disjoint (kfold_folds perm k)
    ∧ (kfold_folds perm k).flatten.Perm (List.range n)
    ∧ ∀ fold ∈ kfold_folds perm k, |(fold.length : ℚ) - (n : ℚ) / (k : ℚ)| ≤ 1 := by
  have hlen : perm.length = n := by rw [hperm.length_eq, List.length_range]
  have hsum : (kfold_sizes perm.length k).sum = perm.length := by
    rw [hlen]; exact kfold_sizes_sum n k hk
  have hflat : (kfold_folds perm k).flatten = perm := by
    rw [kfold_folds, splitSizes_flatten, hsum, List.take_length]
  have hnd : perm.Nodup := (hperm.nodup_iff).mpr (List.nodup_range n)
  have hndf : (kfold_folds perm k).flatten.Nodup := by rw [hflat]; exact hnd
  refine ⟨(List.nodup_flatten.mp hndf).2, by rw [hflat]; exact hperm, ?_⟩
  intro fold hfold
  have hmem : fold.length ∈ kfold_sizes n k := by
    have hmaps : (kfold_folds perm k).map List.length = kfold_sizes perm.length k :=
      splitSizes_lengths _ _ (le_of_eq hsum)
    have hx := List.mem_map_of_mem List.length hfold
    rw [hmaps, hlen] at hx
    exact hx
  have hkQ : (0 : ℚ) < (k : ℚ) := by exact_mod_cast hk
  have hle : ((n / k : ℕ) : ℚ) ≤ (n : ℚ) / (k : ℚ) := Nat.cast_div_le
  have h4 : n < (n / k + 1) * k := by
    have h3 := Nat.mod_lt n hk
    calc n = k * (n / k) + n % k := (Nat.div_add_mod n k).symm
      _ < k * (n / k) + k := Nat.add_lt_add_left h3 _
      _ = (n / k + 1) * k := by ring
  have hlt : (n : ℚ) / (k : ℚ) < ((n / k : ℕ) : ℚ) + 1 := by
    rw [div_lt_iff₀ hkQ]
    exact_mod_cast h4
  unfold kfold_sizes at hmem
  rcases List.mem_map.mp hmem with ⟨i, _, hsz⟩
  by_cases hcond : i < n % k
  · rw [if_pos hcond] at hsz
    rw [← hsz]
    push_cast
    rw [abs_le]
    constructor <;> linarith
  · rw [if_neg hcond] at hsz
    rw [← hsz]
    push_cast
    rw [abs_le]
    constructor <;> linarith

/-- Witness for `kfold_folds_partition`: `n = 5` samples, `k = 2` folds,
shuffled indices `[3, 0, 4, 1, 2]` (folds `[3, 0, 4]` and `[1, 2]`). -/
theorem kfold_folds_partition_witness :
    (([3, 0, 4, 1, 2] : List ℕ).Perm (List.range 5) ∧ 0 < 2 ∧ 2 ≤ 5)
    ∧ (List.Pairwise List.Disjoint (kfold_folds [3, 0, 4, 1, 2] 2)
      ∧ (kfold_folds [3, 0, 4, 1, 2] 2).flatten.Perm (List.range 5)
      ∧ ∀ fold ∈ kfold_folds [3, 0, 4, 1, 2] 2,
          |(fold.length : ℚ) - (5 : ℚ) / (2 : ℚ)| ≤ 1) :=
  ⟨⟨by decide, by decide, by decide⟩,
    kfold_folds_partition 5 2 [3, 0, 4, 1, 2] (by decide) (by decide) (by decide)⟩

/-! ## Theorems: SBC confidence bands (C8) -/

theorem ppfSearch_ge (pred : ℕ → Bool) :
    ∀ fuel start, start ≤ ppfSearch pred fuel start := by
  intro fuel
  induction fuel with
  | zero =>
    intro start
    rw [ppfSearch]
  | succ fuel ih =>
    intro start
    rw [ppfSearch]
    by_cases h : pred start
    · rw [if_pos h]
    · rw [if_neg h]
      exact le_trans (Nat.le_succ start) (ih (start + 1))

theorem ppfSearch_mono {p1 p2 : ℕ → Bool} (himp : ∀ k, p2 k = true → p1 k = true) :
    ∀ fuel start, ppfSearch p1 fuel start ≤ ppfSearch p2 fuel start := by
  intro fuel
  induction fuel with
  | zero =>
    intro start
    rw [ppfSearch, ppfSearch]
  | succ fuel ih =>
    intro start
    rw [ppfSearch, ppfSearch]
    by_cases h1 : p1 start
    · rw [if_pos h1]
      by_cases h2 : p2 start
      · rw [if_pos h2]
      · rw [if_neg h2]
        exact le_trans (Nat.le_succ start) (ppfSearch_ge p2 fuel (start + 1))
    · have h2 : ¬ p2 start = true := fun hc => h1 (himp start hc)
      rw [if_neg h1, if_neg h2]
      exact ih (start + 1)

theorem binomPPF_mono_q (N : ℕ) (p : ℚ) {q1 q2 : ℚ} (h : q1 ≤ q2) :
    binomPPF N p q1 ≤ binomPPF N p q2 := by
  unfold binomPPF
  exact ppfSearch_mono
    (fun k hk => decide_eq_true (le_trans h (of_decide_eq_true hk))) (N + 1) 0

theorem cumsum_length (l : List ℚ) : (cumsum l).length = l.length := by
  simp [cumsum]

theorem sbcHbbRaw_length (N nbins : ℕ) : (sbcHbbRaw N nbins).length = nbins := by
  simp [sbcHbbRaw, cumsum, sbcHb]

theorem adjustLast_length (l : List ℚ) (h : l ≠ []) :
    (adjustLast l).length = l.length := by
  obtain ⟨x, hx⟩ : ∃ x, l.getLast? = some x := by
    cases hl : l.getLast? with
    | none => exact absurd (List.getLast?_eq_none_iff.mp hl) h
    | some x => exact ⟨x, rfl⟩
  have hpos : 0 < l.length := List.length_pos.mpr h
  rw [adjustLast, hx]
  simp only [List.length_append, List.length_take, List.length_cons,
    List.length_nil]
  omega

theorem sbcHbb_length (N nbins : ℕ) (hnb : 0 < nbins) :
    (sbcHbb N nbins).length = nbins := by
  have hne : sbcHbbRaw N nbins ≠ [] :=
    List.ne_nil_of_length_pos (by rw [sbcHbbRaw_length]; exact hnb)
  rw [sbcHbb, adjustLast_length _ hne, sbcHbbRaw_length]

theorem sbcHbbRaw_getElem? (N nbins : ℕ) (i : ℕ) (hi : i < nbins) :
    (sbcHbbRaw N nbins)[i]?
      = some ((List.take (i + 1) (sbcHb N nbins)).sum / (sbcHb N nbins).sum) := by
  have hlb : (sbcHb N nbins).length = nbins := by simp [sbcHb]
  rw [sbcHbbRaw, List.getElem?_map, cumsum, List.getElem?_map,
    List.getElem?_range (by rw [hlb]; exact hi)]
  rfl

theorem sbcHb_sum (N nbins : ℕ) :
    (sbcHb N nbins).sum
      = (nbins : ℚ) * ((binomPPF N (1 / (nbins : ℚ)) (1/2) : ℕ) : ℚ) := by
  rw [sbcHb, List.sum_replicate, nsmul_eq_mul]

theorem sbcHb_take_sum (N nbins : ℕ) (i : ℕ) (hi : i + 1 ≤ nbins) :
    (List.take (i + 1) (sbcHb N nbins)).sum
      = ((i : ℚ) + 1) * ((binomPPF N (1 / (nbins : ℚ)) (1/2) : ℕ) : ℚ) := by
  rw [sbcHb, List.take_replicate, Nat.min_eq_left hi, List.sum_replicate,
    nsmul_eq_mul]
  push_cast
  ring

theorem sbcHbb_getD_mid (N nbins : ℕ)
    (hM : binomPPF N (1 / (nbins : ℚ)) (1/2) ≠ 0) :
    ∀ i, i + 1 < nbins →
      (sbcHbb N nbins).getD i 0 = ((i : ℚ) + 1) / (nbins : ℚ) := by
  intro i hi
  have hMQ : ((binomPPF N (1 / (nbins : ℚ)) (1/2) : ℕ) : ℚ) ≠ 0 :=
    Nat.cast_ne_zero.mpr hM
  have hlenraw : (sbcHbbRaw N nbins).length = nbins := sbcHbbRaw_length N nbins
  have htl : i < (List.take ((sbcHbbRaw N nbins).length - 1) (sbcHbbRaw N nbins)).length := by
    simp only [List.length_take, hlenraw]
    omega
  have h1 : (sbcHbb N nbins).getD i 0 = (sbcHbbRaw N nbins).getD i 0 := by
    rw [sbcHbb, adjustLast, List.getD_eq_getElem?_getD, List.getElem?_append,
      if_pos htl, List.getElem?_take,
      if_pos (by omega : i < (sbcHbbRaw N nbins).length - 1),
      ← List.getD_eq_getElem?_getD]
  rw [h1, List.getD_eq_getElem?_getD, sbcHbbRaw_getElem? N nbins i (by omega),
    Option.getD_some, sbcHb_take_sum N nbins i (by omega), sbcHb_sum,
    mul_div_mul_right _ _ hMQ]

theorem sbcHbb_getD_last (N nbins : ℕ) (hnb : 0 < nbins)
    (hM : binomPPF N (1 / (nbins : ℚ)) (1/2) ≠ 0) :
    (sbcHbb N nbins).getD (nbins - 1) 0 = 1 - 1 / 1000000000 := by
  have hMQ : ((binomPPF N (1 / (nbins : ℚ)) (1/2) : ℕ) : ℚ) ≠ 0 :=
    Nat.cast_ne_zero.mpr hM
  have hnbQ : ((nbins : ℕ) : ℚ) ≠ 0 := Nat.cast_ne_zero.mpr (by omega)
  have hlenraw : (sbcHbbRaw N nbins).length = nbins := sbcHbbRaw_length N nbins
  have hne : sbcHbbRaw N nbins ≠ [] :=
    List.ne_nil_of_length_pos (by rw [hlenraw]; exact hnb)
  have hlast : (sbcHbbRaw N nbins).getLast? = some 1 := by
    rw [List.getLast?_eq_getElem?, hlenraw,
      sbcHbbRaw_getElem? N nbins (nbins - 1) (by omega)]
    have hstep : nbins - 1 + 1 = nbins := by omega
    rw [hstep]
    have hfull : List.take nbins (sbcHb N nbins) = sbcHb N nbins := by
      rw [sbcHb, List.take_replicate, Nat.min_self]
    rw [hfull, div_self]
    rw [sbcHb_sum]
    exact mul_ne_zero hnbQ hMQ
  have htklen : (List.take ((sbcHbbRaw N nbins).length - 1) (sbcHbbRaw N nbins)).length
      = nbins - 1 := by
    simp only [List.length_take, hlenraw]
    omega
  rw [sbcHbb, adjustLast, hlast, List.getD_eq_getElem?_getD, List.getElem?_append,
    htklen, if_neg (lt_irrefl (nbins - 1)), Nat.sub_self]
  rfl

theorem quantileLinear_singleton (x q : ℚ) : quantileLinear [x] q = x := by
  have hs : List.insertionSort (· ≤ ·) [x] = [x] := rfl
  unfold quantileLinear
  rw [hs]
  norm_num

theorem map_range_getD (l : List ℚ) :
    (List.range l.length).map (fun i : ℕ => l.getD i 0) = l := by
  apply List.ext_getElem
  · simp
  · intro n h1 h2
    simp only [List.getElem_map, List.getElem_range]
    exact List.getD_eq_getElem l 0 h2

theorem mcUniformBand_singleton (u alphas : List ℚ) (ca : ℚ) :
    mcUniformBand [u] alphas ca = (PP_vals u alphas, PP_vals u alphas) := by
  have hlen : (PP_vals u alphas).length = alphas.length := by
    simp [PP_vals]
  unfold mcUniformBand
  simp only [List.map_cons, List.map_nil, quantileLinear_singleton]
  rw [← hlen, Prod.mk.injEq]
  exact ⟨map_range_getD _, map_range_getD _⟩

/-- C8 counterexample: the band of `global_coverage_pp_plots` is a nontrivial
function of the Monte-Carlo uniform draws (two different drawn samples give
two different bands), so it is not computed analytically without simulation;
and the band of `multi_global_consistency` differs from a band built with
per-bin success probability `1/nbins` in every bin (at `N = 5` ranks,
`nbins = 2`). -/
theorem sbc_band_counterexample :
    mcUniformBand [[(1 : ℚ)/2]] [(7 : ℚ)/10] (1/2)
      ≠ mcUniformBand [[(9 : ℚ)/10]] [(7 : ℚ)/10] (1/2)
    ∧ sbcBand2022 5 2 ≠ sbcBandSpecWords 5 2 := by
  constructor
  · have h1 : mcUniformBand [[(1 : ℚ)/2]] [(7 : ℚ)/10] (1/2) = ([1], [1]) := by
      norm_num [mcUniformBand, quantileLinear, PP_vals, List.insertionSort,
        List.orderedInsert, List.range_succ, List.filter]
    have h2 : mcUniformBand [[(9 : ℚ)/10]] [(7 : ℚ)/10] (1/2) = ([0], [0]) := by
      norm_num [mcUniformBand, quantileLinear, PP_vals, List.insertionSort,
        List.orderedInsert, List.range_succ, List.filter]
    rw [h1, h2]
    norm_num
  · have h1 : sbcBand2022 5 2 = ([0, 5], [5, 5]) := by
      norm_num [sbcBand2022, sbcHbb, sbcHbbRaw, sbcHb, adjustLast, cumsum,
        binomPPF, ppfSearch, binomCDF, binomPMF, List.range_succ, Nat.choose]
    have h2 : sbcBandSpecWords 5 2 = ([0, 0], [5, 5]) := by
      norm_num [sbcBandSpecWords, binomPPF, ppfSearch, binomCDF, binomPMF,
        List.range_succ, Nat.choose, List.replicate]
    rw [h1, h2]
    decide

/-- C8 (amended): `multi_global_consistency` computes its SBC band
analytically from Binomial quantiles: one `binom(N, p).ppf` value per bin at
the 0.005 and 0.995 quantiles, with per-bin success probability the
cumulative `hbb_i = (i+1)/nbins` (the last entry reduced by `1e-9`), giving a
pointwise lower band below the upper band; `global_coverage_pp_plots`
Bonferroni-corrects the significance level by dividing it by the number of
dimensions, and estimates its band by Monte-Carlo: with a single trial the
band equals the PP-curve of the drawn uniform sample. -/
theorem sbc_band_spec (N nbins : ℕ) (hnb : 0 < nbins)
    (hM : binomPPF N (1 / (nbins : ℚ)) (1/2) ≠ 0) :
    (sbcBand2022 N nbins).1.length = nbins
    ∧ (sbcBand2022 N nbins).2.length = nbins
    ∧ (∀ i, i < nbins →
        (sbcBand2022 N nbins).1.getD i 0 ≤ (sbcBand2022 N nbins).2.getD i 0)
    ∧ (∀ i, i + 1 < nbins →
        (sbcHbb N nbins).getD i 0 = ((i : ℚ) + 1) / (nbins : ℚ))
    ∧ (sbcHbb N nbins).getD (nbins - 1) 0 = 1 - 1 / 1000000000
    ∧ (sbcBand2022 N nbins).1
        = (sbcHbb N nbins).map (fun p => binomPPF N p (1/200))
    ∧ (sbcBand2022 N nbins).2
        = (sbcHbb N nbins).map (fun p => binomPPF N p (199/200))
    ∧ (∀ ca : ℚ, ∀ d : ℕ, 0 < d → bonferroni ca d * (d : ℚ) = ca)
    ∧ (∀ u alphas : List ℚ, ∀ ca : ℚ,
        mcUniformBand [u] alphas ca = (PP_vals u alphas, PP_vals u alphas)) := by
  have hhl : (sbcHbb N nbins).length = nbins := sbcHbb_length N nbins hnb
  refine ⟨by simp [sbcBand2022, hhl], by simp [sbcBand2022, hhl], ?_,
    sbcHbb_getD_mid N nbins hM, sbcHbb_getD_last N nbins hnb hM, rfl, rfl,
    ?_, mcUniformBand_singleton⟩
  · intro i hi
    have hb1 : i < ((sbcHbb N nbins).map (fun p => binomPPF N p (1/200))).length := by
      simp [hhl]
      exact hi
    have hb2 : i < ((sbcHbb N nbins).map (fun p => binomPPF N p (199/200))).length := by
      simp [hhl]
      exact hi
    rw [sbcBand2022, List.getD_eq_getElem _ _ hb1, List.getD_eq_getElem _ _ hb2,
      List.getElem_map, List.getElem_map]
    exact binomPPF_mono_q N _ (by norm_num)
  · intro ca d hd
    rw [bonferroni, div_mul_cancel₀]
    exact Nat.cast_ne_zero.mpr (by omega)

/-- Witness for `sbc_band_spec` at `N = 5` ranks and `nbins = 2` bins. -/
theorem sbc_band_spec_witness :
    (0 < 2 ∧ binomPPF 5 (1 / ((2 : ℕ) : ℚ)) (1/2) ≠ 0)
    ∧ ((sbcBand2022 5 2).1.length = 2
      ∧ (sbcBand2022 5 2).2.length = 2
      ∧ (∀ i, i < 2 →
          (sbcBand2022 5 2).1.getD i 0 ≤ (sbcBand2022 5 2).2.getD i 0)
      ∧ (∀ i, i + 1 < 2 →
          (sbcHbb 5 2).getD i 0 = ((i : ℚ) + 1) / ((2 : ℕ) : ℚ))
      ∧ (sbcHbb 5 2).getD (2 - 1) 0 = 1 - 1 / 1000000000
      ∧ (sbcBand2022 5 2).1 = (sbcHbb 5 2).map (fun p => binomPPF 5 p (1/200))
      ∧ (sbcBand2022 5 2).2 = (sbcHbb 5 2).map (fun p => binomPPF 5 p (199/200))
      ∧ (∀ ca : ℚ, ∀ d : ℕ, 0 < d → bonferroni ca d * (d : ℚ) = ca)
      ∧ (∀ u alphas : List ℚ, ∀ ca : ℚ,
          mcUniformBand [u] alphas ca = (PP_vals u alphas, PP_vals u alphas))) :=
  ⟨⟨by decide,
      by norm_num [binomPPF, ppfSearch, binomCDF, binomPMF, List.range_succ,
        Nat.choose]⟩,
    sbc_band_spec 5 2 (by decide)
      (by norm_num [binomPPF, ppfSearch, binomCDF, binomPMF, List.range_succ,
        Nat.choose])⟩

/-! ## Theorems: shape of the hypothesis-test result (C9) -/

/-- C9 counterexample: the value returned by `eval_htest` does not contain the
estimated statistics or the p-values: two estimators with different observed
statistics and different p-values produce exactly the same returned value. -/
theorem eval_htest_payload_counterexample :
    eval_htest (fun _ => (fun _ => (0 : ℚ), fun _ => [1, 1])) ["m"] (1/20)
      = eval_htest (fun _ => (fun _ => (1 : ℚ)/2, fun _ => [1, 0])) ["m"] (1/20)
    ∧ compute_pvalue (0 : ℚ) [1, 1] ≠ compute_pvalue ((1 : ℚ)/2) [1, 0]
    ∧ (0 : ℚ) ≠ (1 : ℚ)/2 := by
  refine ⟨?_, ?_, by norm_num⟩
  · have e1 : eval_htest (fun _ => (fun _ => (0 : ℚ), fun _ => [1, 1])) ["m"] (1/20)
        = [("m", false)] := by
      norm_num [eval_htest, compute_pvalue, List.filter]
    have e2 : eval_htest (fun _ => (fun _ => (1 : ℚ)/2, fun _ => [1, 0])) ["m"] (1/20)
        = [("m", false)] := by
      norm_num [eval_htest, compute_pvalue, List.filter]
    rw [e1, e2]
  · have p1 : compute_pvalue (0 : ℚ) [1, 1] = 1 := by
      norm_num [compute_pvalue, List.filter]
    have p2 : compute_pvalue ((1 : ℚ)/2) [1, 0] = 1/2 := by
      norm_num [compute_pvalue, List.filter]
    rw [p1, p2]
    norm_num

/-- C9 (amended): `eval_htest` always returns exactly one boolean reject
decision per requested metric (and nothing else: no statistics, p-values or
exclusion counts are part of the result); it is total, and in particular a
degenerate constant null sample still yields a well-defined p-value of `1` or
`0` rather than an exception. -/
theorem eval_htest_decisions_only
    (est : List String → (String → ℚ) × (String → List ℚ))
    (metrics : List String) (conf_alpha : ℚ) :
    (eval_htest est metrics conf_alpha).length = metrics.length
    ∧ (∀ m ∈ metrics,
        (m, decide (compute_pvalue ((est metrics).1 m) ((est metrics).2 m)
            < conf_alpha)) ∈ eval_htest est metrics conf_alpha)
    ∧ (∀ pr ∈ eval_htest est metrics conf_alpha, pr.1 ∈ metrics)
    ∧ (∀ t c : ℚ, ∀ k : ℕ,
        compute_pvalue t (List.replicate (k + 1) c) = if t < c then 1 else 0) := by
  refine ⟨List.length_map _ _, ?_, ?_, ?_⟩
  · intro m hm
    exact List.mem_map.mpr ⟨m, hm, rfl⟩
  · intro pr hpr
    rcases List.mem_map.mp hpr with ⟨m, hm, hpair⟩
    rw [← hpair]
    exact hm
  · intro t c k
    unfold compute_pvalue
    by_cases h : t < c
    · rw [List.filter_replicate, if_pos (by simpa using h)]
      simp only [List.length_replicate]
      rw [div_self (by exact_mod_cast Nat.succ_ne_zero k), if_pos h]
    · rw [List.filter_replicate, if_neg (by simpa using h)]
      simp only [List.length_nil, List.length_replicate, Nat.cast_zero, zero_div]
      rw [if_neg h]

/-- Witness for `eval_htest_decisions_only` at one metric, observed statistic
`0`, null sample `[1]`, level `1/20`. -/
theorem eval_htest_decisions_only_witness :
    (eval_htest (fun _ : List String => (fun _ : String => (0 : ℚ),
        fun _ : String => [(1 : ℚ)])) ["m"] (1/20)).length = (["m"]).length
    ∧ (∀ m ∈ ["m"],
        (m, decide (compute_pvalue
            (((fun _ : List String => (fun _ : String => (0 : ℚ),
                fun _ : String => [(1 : ℚ)])) (["m"] : List String)).1 m)
            (((fun _ : List String => (fun _ : String => (0 : ℚ),
                fun _ : String => [(1 : ℚ)])) (["m"] : List String)).2 m) < 1/20))
          ∈ eval_htest (fun _ : List String => (fun _ : String => (0 : ℚ),
              fun _ : String => [(1 : ℚ)])) ["m"] (1/20))
    ∧ (∀ pr ∈ eval_htest (fun _ : List String => (fun _ : String => (0 : ℚ),
          fun _ : String => [(1 : ℚ)])) ["m"] (1/20), pr.1 ∈ ["m"])
    ∧ (∀ t c : ℚ, ∀ k : ℕ,
        compute_pvalue t (List.replicate (k + 1) c) = if t < c then 1 else 0) :=
  eval_htest_decisions_only (fun _ : List String => (fun _ : String => (0 : ℚ),
    fun _ : String => [(1 : ℚ)])) ["m"] (1/20)

/-! ## Theorems: termination and result of `hpd_region` (C10) -/

theorem linspace_length (a b : ℚ) (n : ℕ) : (linspace a b n).length = n := by
  unfold linspace
  by_cases h : n = 1
  · rw [if_pos h, h]; rfl
  · rw [if_neg h]
    simp

theorem hpd_loop_invariant (probs p_stars : List ℚ) (cl tol : ℚ) :
    ∀ (fuel idx : ℕ) (cur : ℚ) (levels : List ℚ),
      p_stars.length - idx ≤ fuel →
      idx ≤ p_stars.length →
      levels.length = idx →
      (∀ j, j < idx → levels.getD j 0 = levelAt probs p_stars j) →
      (∀ l ∈ levels, |cur - cl| ≤ |l - cl|) →
      (cur = 1 ∨ cur ∈ levels) →
      idx ≤ (hpd_loop probs p_stars cl tol idx cur levels).2.2
      ∧ (hpd_loop probs p_stars cl tol idx cur levels).2.2 ≤ p_stars.length
      ∧ (hpd_loop probs p_stars cl tol idx cur levels).2.1.length
          = (hpd_loop probs p_stars cl tol idx cur levels).2.2
      ∧ (∀ j, j < (hpd_loop probs p_stars cl tol idx cur levels).2.2 →
          (hpd_loop probs p_stars cl tol idx cur levels).2.1.getD j 0
            = levelAt probs p_stars j)
      ∧ (|(hpd_loop probs p_stars cl tol idx cur levels).1 - cl| ≤ tol
          ∨ (hpd_loop probs p_stars cl tol idx cur levels).2.2 = p_stars.length)
      ∧ (∀ l ∈ (hpd_loop probs p_stars cl tol idx cur levels).2.1,
          |(hpd_loop probs p_stars cl tol idx cur levels).1 - cl| ≤ |l - cl|)
      ∧ ((hpd_loop probs p_stars cl tol idx cur levels).1 = 1
          ∨ (hpd_loop probs p_stars cl tol idx cur levels).1
              ∈ (hpd_loop probs p_stars cl tol idx cur levels).2.1) := by
  intro fuel
  induction fuel with
  | zero =>
    intro idx cur levels hfuel hidx hlen hinv hbest hmem
    have heq : idx = p_stars.length := by omega
    rw [hpd_loop]
    by_cases htol : |cur - cl| ≤ tol
    · rw [if_pos htol]
      exact ⟨le_refl _, hidx, hlen, hinv, Or.inl htol, hbest, hmem⟩
    · rw [if_neg htol, dif_neg (by omega : ¬ idx < p_stars.length)]
      exact ⟨le_refl _, hidx, hlen, hinv, Or.inr heq, hbest, hmem⟩
  | succ fuel ih =>
    intro idx cur levels hfuel hidx hlen hinv hbest hmem
    rw [hpd_loop]
    by_cases htol : |cur - cl| ≤ tol
    · rw [if_pos htol]
      exact ⟨le_refl _, hidx, hlen, hinv, Or.inl htol, hbest, hmem⟩
    · rw [if_neg htol]
      by_cases hlt : idx < p_stars.length
      · rw [dif_pos hlt]
        set newLevel := levelAt probs p_stars idx with hnewdef
        set cur' := if |newLevel - cl| < |cur - cl| then newLevel else cur
          with hcurdef
        have h1 : p_stars.length - (idx + 1) ≤ fuel := by omega
        have h2 : idx + 1 ≤ p_stars.length := hlt
        have h3 : (levels ++ [newLevel]).length = idx + 1 := by
          rw [List.length_append, hlen]
          rfl
        have h4 : ∀ j, j < idx + 1 →
            (levels ++ [newLevel]).getD j 0 = levelAt probs p_stars j := by
          intro j hj
          rcases Nat.lt_or_ge j idx with hji | hji
          · rw [List.getD_append _ _ _ _ (by omega)]
            exact hinv j hji
          · have hjeq : j = idx := by omega
            subst hjeq
            rw [List.getD_append_right _ _ _ _ (le_of_eq hlen), hlen, Nat.sub_self]
            simp [hnewdef]
        have h5 : ∀ l ∈ levels ++ [newLevel], |cur' - cl| ≤ |l - cl| := by
          intro l hl
          rcases List.mem_append.mp hl with hl | hl
          · by_cases hc : |newLevel - cl| < |cur - cl|
            · rw [hcurdef, if_pos hc]
              exact le_trans (le_of_lt hc) (hbest l hl)
            · rw [hcurdef, if_neg hc]
              exact hbest l hl
          · have hle : l = newLevel := by simpa using hl
            rw [hle]
            by_cases hc : |newLevel - cl| < |cur - cl|
            · rw [hcurdef, if_pos hc]
            · rw [hcurdef, if_neg hc]
              exact le_of_not_lt hc
        have h6 : cur' = 1 ∨ cur' ∈ levels ++ [newLevel] := by
          by_cases hc : |newLevel - cl| < |cur - cl|
          · right
            rw [hcurdef, if_pos hc]
            exact List.mem_append.mpr (Or.inr (by simp))
          · rw [hcurdef, if_neg hc]
            rcases hmem with h | h
            · exact Or.inl h
            · exact Or.inr (List.mem_append.mpr (Or.inl h))
        have hres := ih (idx + 1) cur' (levels ++ [newLevel]) h1 h2 h3 h4 h5 h6
        exact ⟨le_trans (Nat.le_succ idx) hres.1, hres.2.1, hres.2.2.1,
          hres.2.2.2.1, hres.2.2.2.2.1, hres.2.2.2.2.2.1, hres.2.2.2.2.2.2⟩
      · rw [dif_neg hlt]
        have heq : idx = p_stars.length := by omega
        exact ⟨le_refl _, hidx, hlen, hinv, Or.inr heq, hbest, hmem⟩

/-- C10: `hpd_region` terminates for every input with `n_p_stars ≥ 1`; writing
`(current, levels, idx)` for the final loop state (`hpd_res`), the loop ran
`idx ≤ n_p_stars` iterations, recorded exactly one examined confidence level
per iteration (`levels[j]` is the total normalized probability above threshold
`p_stars[j]`), exited only because the tracked level was within `tol` of the
requested one or because `idx` reached `n_p_stars`, the tracked level is the
best one found (closest to `confidence_level` among the examined levels, or
the initial `1`), and the function returns that level, the grid rows whose
normalized probability is at least the last chosen threshold
`p_stars[idx - 1]`, and the examined levels. -/
theorem hpd_region_spec (raw : List ℚ) (grid : List (List ℚ)) (cl : ℚ) (n : ℕ)
    (tol : ℚ) (hn : 1 ≤ n) :
    hpd_region raw grid cl n tol
      = ((hpd_res raw cl n tol).1,
         maskRows grid (normalize raw)
           (pyGetD (hpd_stars n) (((hpd_res raw cl n tol).2.2 : ℤ) - 1)),
         (hpd_res raw cl n tol).2.1)
    ∧ (hpd_res raw cl n tol).2.2 ≤ n
    ∧ (hpd_res raw cl n tol).2.1.length = (hpd_res raw cl n tol).2.2
    ∧ (∀ j, j < (hpd_res raw cl n tol).2.2 →
        (hpd_res raw cl n tol).2.1.getD j 0
          = levelAt (normalize raw) (hpd_stars n) j)
    ∧ (|(hpd_res raw cl n tol).1 - cl| ≤ tol ∨ (hpd_res raw cl n tol).2.2 = n)
    ∧ (∀ l ∈ (hpd_res raw cl n tol).2.1,
        |(hpd_res raw cl n tol).1 - cl| ≤ |l - cl|)
    ∧ ((hpd_res raw cl n tol).1 = 1
        ∨ (hpd_res raw cl n tol).1 ∈ (hpd_res raw cl n tol).2.1) := by
  have hlen : (hpd_stars n).length = n := linspace_length _ _ n
  have hinv := hpd_loop_invariant (normalize raw) (hpd_stars n) cl tol
    (hpd_stars n).length 0 1 [] (by omega) (by omega) rfl
    (by intro j hj; omega) (by intro l hl; simp at hl) (Or.inl rfl)
  rw [hlen] at hinv
  unfold hpd_res
  exact ⟨rfl, hinv.2.1, hinv.2.2.1, hinv.2.2.2.1, hinv.2.2.2.2.1,
    hinv.2.2.2.2.2.1, hinv.2.2.2.2.2.2⟩

/-- Witness for `hpd_region_spec`: two grid rows with raw weights `[3, 1]`,
requested confidence level `1/2`, `n_p_stars = 3`, tolerance `1/10`. -/
theorem hpd_region_spec_witness :
    (1 ≤ 3)
    ∧ (hpd_region [3, 1] [[0], [1]] (1/2) 3 (1/10)
        = ((hpd_res [3, 1] (1/2) 3 (1/10)).1,
           maskRows [[0], [1]] (normalize [3, 1])
             (pyGetD (hpd_stars 3) (((hpd_res [3, 1] (1/2) 3 (1/10)).2.2 : ℤ) - 1)),
           (hpd_res [3, 1] (1/2) 3 (1/10)).2.1)
      ∧ (hpd_res [3, 1] (1/2) 3 (1/10)).2.2 ≤ 3
      ∧ (hpd_res [3, 1] (1/2) 3 (1/10)).2.1.length
          = (hpd_res [3, 1] (1/2) 3 (1/10)).2.2
      ∧ (∀ j, j < (hpd_res [3, 1] (1/2) 3 (1/10)).2.2 →
          (hpd_res [3, 1] (1/2) 3 (1/10)).2.1.getD j 0
            = levelAt (normalize [3, 1]) (hpd_stars 3) j)
      ∧ (|(hpd_res [3, 1] (1/2) 3 (1/10)).1 - 1/2| ≤ 1/10
          ∨ (hpd_res [3, 1] (1/2) 3 (1/10)).2.2 = 3)
      ∧ (∀ l ∈ (hpd_res [3, 1] (1/2) 3 (1/10)).2.1,
          |(hpd_res [3, 1] (1/2) 3 (1/10)).1 - 1/2| ≤ |l - 1/2|)
      ∧ ((hpd_res [3, 1] (1/2) 3 (1/10)).1 = 1
          ∨ (hpd_res [3, 1] (1/2) 3 (1/10)).1 ∈ (hpd_res [3, 1] (1/2) 3 (1/10)).2.1)) :=
  ⟨by norm_num, hpd_region_spec [3, 1] [[0], [1]] (1/2) 3 (1/10) (by norm_num)⟩

/-! ## Theorems: `Q = None` forces single-class evaluation (C7) -/

/-- C7: when `eval_lc2st` is called with `Q = None`, the classifier is
evaluated through `eval_c2st` with population 1 absent and
`single_class_eval = True`, whatever flag the caller passed; in particular the
result does not depend on the caller's `single_class_eval` argument. -/
theorem eval_lc2st_none_forces_single_class {Clf : Type}
    (evalC2st : List (List ℚ) → Option (List (List ℚ)) → Clf → Bool → ℚ × List ℚ)
    (P : List (List ℚ)) (x_eval : List ℚ) (clf : Clf) (sce : Bool) :
    eval_lc2st evalC2st P x_eval clf none sce
      = evalC2st (evalFeatures P x_eval) none clf true
    ∧ eval_lc2st evalC2st P x_eval clf none sce
      = eval_lc2st evalC2st P x_eval clf none true :=
  ⟨rfl, rfl⟩

end SbcFlows
